import Mathlib

/-!
Shallow embedding of the GMV daily ETL job (`q2/app/main.py`), an SCD2-style
pipeline: deduplicate raw records to their latest version, join/filter/aggregate
them into a daily snapshot, and merge the snapshot into a historical Delta table
by superseding matching current rows and appending the new ones.

Record sets (Spark DataFrames) are modelled as Lists; the destination Delta
table as an `Option DeltaTable` (`none` = table does not exist), where
`DeltaTable` records the partition column chosen at creation and the rows.
The wall-clock timestamp `current_timestamp()` is passed in as a parameter.
-/

namespace GmvEtl

/-- A row of `bronze.purchase` (the primary source). Natural key is
(purchase_id, purchase_partition); `transaction_datetime` orders successive
versions of the same purchase; `transaction_date` is the ingestion-date
partition used by extraction. -/
structure Purchase where
  purchase_id : Nat
  purchase_partition : Nat
  transaction_date : Nat
  transaction_datetime : Nat
  purchase_status : String
  purchase_total_value : Int
  subsidiary : String
deriving DecidableEq, Repr

/-- A row of `bronze.purchase_extra_info` (the enrichment source), sharing the
natural key (purchase_id, purchase_partition); carries the (nullable)
`release_date`. -/
structure PurchaseExtraInfo where
  purchase_id : Nat
  purchase_partition : Nat
  transaction_date : Nat
  transaction_datetime : Nat
  release_date : Option Nat
deriving DecidableEq, Repr

/-- A row of `bronze.product_item`: extracted by the job but never used by the
transformation; its fields beyond the extraction-date filter are irrelevant,
so they are modelled as a single payload. -/
structure ProductItem where
  transaction_date : Nat
  payload : Nat
deriving DecidableEq, Repr

/-- A row of the snapshot produced by `transform_gmv_snapshot`, and also of the
destination table `silver.fct_gmv_diario`. -/
structure GmvRow where
  gmv_date : Nat
  subsidiary : String
  gmv_total_day : Int
  calculation_timestamp : Nat
  is_latest : Bool
deriving DecidableEq, Repr

/-- The destination Delta table: the partition column fixed at creation time
and the stored rows. -/
structure DeltaTable where
  partitionColumn : String
  rows : List GmvRow
deriving DecidableEq, Repr

/-- The (metric_date, business_unit) key of a destination/snapshot row. -/
def rowKey (r : GmvRow) : Nat × String :=
  (r.gmv_date, r.subsidiary)

/-- The merge condition of `load_data_to_delta` restricted to the key columns:
`target.gmv_date = source.gmv_date AND target.subsidiary = source.subsidiary`
for source row `x` and target row `r`. -/
def sameKeyB (x r : GmvRow) : Bool :=
  x.gmv_date == r.gmv_date && x.subsidiary == r.subsidiary

/-- Whether some snapshot (source) row matches target row `r` on the key
columns. -/
def matchedBy (s : List GmvRow) (r : GmvRow) : Bool :=
  s.any (fun x => sameKeyB x r)

/-- The effect of the MERGE's `whenMatchedUpdate(set={"is_latest": false})` on
a single target row: rows matching some source row on the key AND having
`is_latest = true` get `is_latest` set to false; all other rows are kept
unchanged. -/
def supersedeOne (s : List GmvRow) (r : GmvRow) : GmvRow :=
  if r.is_latest && matchedBy s r then { r with is_latest := false } else r

/-- `GmvEtlJob.load_data_to_delta`. If the snapshot is empty, return without
touching the destination. If the destination table does not exist, create it
partitioned by `gmv_date` with the snapshot as content. Otherwise run the
MERGE that flips `is_latest` to false on current rows matching a snapshot key,
then append all snapshot rows. -/
def load_data_to_delta (df_to_load : List GmvRow) (dest : Option DeltaTable) :
    Option DeltaTable :=
  if df_to_load.isEmpty then
    dest
  else
    match dest with
    | none => some ⟨"gmv_date", df_to_load⟩
    | some t => some ⟨t.partitionColumn, t.rows.map (supersedeOne df_to_load) ++ df_to_load⟩

/-- The destination invariant: among rows with `is_latest = true`, the
(gmv_date, subsidiary) keys are pairwise distinct, i.e. at most one current
row per key. -/
def UniqueLatest (rows : List GmvRow) : Prop :=
  ((rows.filter (fun r => r.is_latest)).map rowKey).Nodup

instance : DecidablePred UniqueLatest := fun rows => by
  unfold UniqueLatest
  infer_instance

/-- The element of `r :: xs` with the largest `ord` value, taking the earliest
such element when several are tied (denotation of ordering a partition by
`ord` descending and keeping the row_number-1 element). -/
def bestOf {α : Type} (ord : α → Nat) : α → List α → α
  | r, [] => r
  | r, x :: xs => if ord r < ord x then bestOf ord x xs else bestOf ord r xs

/-- `GmvEtlJob._get_latest_records`: partition the records by `key`, order
each partition by `ord` descending, and keep only the top-ranked record of
each partition (`row_number() == 1`). Partitions are emitted in order of first
appearance of their key, and ties on `ord` are resolved to the earliest
record, one deterministic refinement of the unspecified window tie-break. -/
def select_latest {α κ : Type} [DecidableEq κ] (key : α → κ) (ord : α → Nat) :
    List α → List α
  | [] => []
  | r :: rest =>
      bestOf ord r (rest.filter (fun x => decide (key x = key r))) ::
        select_latest key ord (rest.filter (fun x => decide (key x ≠ key r)))
termination_by l => l.length
decreasing_by
  simp only [List.length_cons]
  exact Nat.lt_succ_of_le (List.length_filter_le _ rest)

/-- The natural join key of a purchase row. -/
def joinKeyP (p : Purchase) : Nat × Nat :=
  (p.purchase_id, p.purchase_partition)

/-- The natural join key of a purchase_extra_info row. -/
def joinKeyE (e : PurchaseExtraInfo) : Nat × Nat :=
  (e.purchase_id, e.purchase_partition)

/-- A row of the left join of the two deduplicated sources: the purchase
columns plus the enrichment's `release_date`, which is null when no
enrichment row matched (or when the matching row's own `release_date` is
null). -/
structure JoinedRow where
  purchase : Purchase
  release_date : Option Nat
deriving DecidableEq, Repr

/-- `latest_purchase.join(latest_purchase_info, ["purchase_id",
"purchase_partition"], "left")`: each purchase row produces one output row per
matching enrichment row, or a single row with null enrichment fields when
nothing matches; enrichment rows matching no purchase produce nothing. -/
def leftJoin (ps : List Purchase) (es : List PurchaseExtraInfo) : List JoinedRow :=
  ps.flatMap (fun p =>
    let ms := es.filter (fun e => decide (joinKeyE e = joinKeyP p))
    if ms.isEmpty then [⟨p, none⟩] else ms.map (fun e => ⟨p, e.release_date⟩))

/-- The eligibility filter of step 2.3: `release_date` is non-null and
`purchase_status` equals the fixed literal. -/
def eligibleB (r : JoinedRow) : Bool :=
  r.release_date.isSome && (r.purchase.purchase_status == "APROVADA")

/-- The grouping key of step 2.3: (`release_date` — renamed `gmv_date` — ,
`subsidiary`). Only applied to eligible rows, whose `release_date` is some. -/
def gmvKey (r : JoinedRow) : Nat × String :=
  (r.release_date.getD 0, r.purchase.subsidiary)

/-- The joined-and-filtered intermediate of `transform_gmv_snapshot`: latest
version of each source record, left-joined, restricted to eligible rows. -/
def eligibleRows (purchase_df : List Purchase) (purchase_extra_info_df : List PurchaseExtraInfo) :
    List JoinedRow :=
  (leftJoin
      (select_latest joinKeyP (fun p => p.transaction_datetime) purchase_df)
      (select_latest joinKeyE (fun e => e.transaction_datetime) purchase_extra_info_df)).filter
    eligibleB

/-- `GmvEtlJob.transform_gmv_snapshot`: deduplicate both sources to their
latest versions, left-join them, filter to eligible rows, group by
(gmv_date, subsidiary) summing `purchase_total_value`, and stamp each group
row with the calculation timestamp `ts` and `is_latest = true`. Groups are
emitted one per distinct key of the eligible rows. -/
def transform_gmv_snapshot (ts : Nat) (purchase_df : List Purchase)
    (purchase_extra_info_df : List PurchaseExtraInfo) : List GmvRow :=
  let elig := eligibleRows purchase_df purchase_extra_info_df
  ((elig.map gmvKey).dedup).map (fun k =>
    { gmv_date := k.1
      subsidiary := k.2
      gmv_total_day :=
        ((elig.filter (fun r => decide (gmvKey r = k))).map
          (fun r => r.purchase.purchase_total_value)).sum
      calculation_timestamp := ts
      is_latest := true })

/-- The Boolean test that a destination/snapshot row has key `(d, u)`. -/
def keyIsB (d : Nat) (u : String) (r : GmvRow) : Bool :=
  r.gmv_date == d && r.subsidiary == u

/-- The three bronze source tables read by extraction. -/
structure SourceTables where
  purchase : List Purchase
  product_item : List ProductItem
  purchase_extra_info : List PurchaseExtraInfo

/-- `GmvEtlJob.extract_source_data`: filter each bronze table to the rows of
the processing date. -/
def extract_source_data (processing_date : Nat) (src : SourceTables) :
    List Purchase × List ProductItem × List PurchaseExtraInfo :=
  (src.purchase.filter (fun r => r.transaction_date == processing_date),
   src.product_item.filter (fun r => r.transaction_date == processing_date),
   src.purchase_extra_info.filter (fun r => r.transaction_date == processing_date))

/-- `GmvEtlJob.run`: extract the three sources (discarding product_item),
transform purchase and purchase_extra_info into the snapshot, and load it
into the destination, returning the new destination state. -/
def runJob (processing_date ts : Nat) (src : SourceTables) (dest : Option DeltaTable) :
    Option DeltaTable :=
  let ext := extract_source_data processing_date src
  load_data_to_delta (transform_gmv_snapshot ts ext.1 ext.2.2) dest

theorem sameKeyB_eq_true_iff (x r : GmvRow) : sameKeyB x r = true ↔ rowKey x = rowKey r := by
  simp [sameKeyB, rowKey, Prod.ext_iff]

theorem matchedBy_iff (s : List GmvRow) (r : GmvRow) :
    matchedBy s r = true ↔ rowKey r ∈ s.map rowKey := by
  simp [matchedBy, List.any_eq_true, sameKeyB_eq_true_iff, List.mem_map]

theorem rowKey_supersedeOne (s : List GmvRow) (r : GmvRow) :
    rowKey (supersedeOne s r) = rowKey r := by
  unfold supersedeOne
  split <;> rfl

theorem matchedBy_supersedeOne (s s' : List GmvRow) (r : GmvRow) :
    matchedBy s' (supersedeOne s r) = matchedBy s' r := by
  unfold supersedeOne
  split <;> rfl

theorem keyIsB_supersedeOne (d : Nat) (u : String) (s : List GmvRow) (r : GmvRow) :
    keyIsB d u (supersedeOne s r) = keyIsB d u r := by
  unfold supersedeOne
  split <;> rfl

theorem supersedeOne_not_matched (s : List GmvRow) (r : GmvRow)
    (h : matchedBy s r = false) : supersedeOne s r = r := by
  simp [supersedeOne, h]

theorem supersedeOne_not_latest (s : List GmvRow) (r : GmvRow)
    (h : r.is_latest = false) : supersedeOne s r = r := by
  simp [supersedeOne, h]

theorem matchedBy_of_mem (s : List GmvRow) (x : GmvRow) (hx : x ∈ s) :
    matchedBy s x = true :=
  (matchedBy_iff s x).2 (List.mem_map_of_mem rowKey hx)

theorem filter_not_matched_map_supersede (s l : List GmvRow) :
    (l.map (supersedeOne s)).filter (fun r => !(matchedBy s r)) =
      l.filter (fun r => !(matchedBy s r)) := by
  rw [List.filter_map]
  have h1 : l.filter ((fun r => !(matchedBy s r)) ∘ supersedeOne s) =
      l.filter (fun r => !(matchedBy s r)) :=
    List.filter_congr fun r _ => by
      simp [Function.comp, matchedBy_supersedeOne]
  rw [h1]
  have h2 : ∀ r ∈ l.filter (fun r => !(matchedBy s r)), supersedeOne s r = r := by
    intro r hr
    have := List.of_mem_filter hr
    exact supersedeOne_not_matched s r (by simpa using this)
  rw [List.map_congr_left h2]
  simp

theorem latest_filter_map_supersede (s l : List GmvRow) :
    (l.map (supersedeOne s)).filter (fun r => r.is_latest) =
      l.filter (fun r => r.is_latest && !(matchedBy s r)) := by
  induction l with
  | nil => rfl
  | cons a l ih =>
      by_cases h1 : a.is_latest <;> by_cases h2 : matchedBy s a <;>
        simp [supersedeOne, h1, h2, List.filter_cons, ih]

theorem forall2_map_self {α : Type} (f : α → α) (R : α → α → Prop) (l : List α)
    (h : ∀ a ∈ l, R a (f a)) : List.Forall₂ R l (l.map f) := by
  induction l with
  | nil => exact List.Forall₂.nil
  | cons a l ih =>
      exact List.Forall₂.cons (h a (by simp)) (ih fun a ha => h a (by simp [ha]))

/-- C7: loading an empty snapshot is a no-op on any destination state —
existing tables are untouched and no table is created. -/
theorem load_empty_snapshot_noop (dest : Option DeltaTable) :
    load_data_to_delta [] dest = dest :=
  rfl

/-- C8: when the destination does not exist, loading a non-empty snapshot
creates the table partitioned by `gmv_date` whose rows are the snapshot
verbatim; when all snapshot rows carry `is_latest = true`, so do all rows of
the created table (no supersede update happens: the content is exactly the
snapshot). -/
theorem load_creates_table_verbatim (s : List GmvRow) (hne : s ≠ [])
    (hlat : ∀ r ∈ s, r.is_latest = true) :
    load_data_to_delta s none = some ⟨"gmv_date", s⟩ ∧
    ∀ t', load_data_to_delta s none = some t' → ∀ r ∈ t'.rows, r.is_latest = true := by
  have hemp : s.isEmpty = false := by
    cases s with
    | nil => exact absurd rfl hne
    | cons a l => rfl
  constructor
  · simp [load_data_to_delta, hemp]
  · intro t' h r hr
    rw [show load_data_to_delta s none = some ⟨"gmv_date", s⟩ by
      simp [load_data_to_delta, hemp]] at h
    cases h
    exact hlat r hr

/-- C8 witness: creating the table from the concrete one-row snapshot. -/
theorem load_creates_table_verbatim_witness :
    load_data_to_delta [⟨1, "A", 12, 200, true⟩] none =
      some ⟨"gmv_date", [⟨1, "A", 12, 200, true⟩]⟩ :=
  (load_creates_table_verbatim [⟨1, "A", 12, 200, true⟩] (by decide)
    (by decide)).1

/-- C9: `load_data_to_delta` is not idempotent. Against the destination
holding the single current row (1, "A", 10), loading the snapshot
[(1, "A", 12)] twice differs from loading it once: the second run appends the
snapshot again, leaving three rows for the key (1, "A") instead of two. -/
theorem load_not_idempotent :
    load_data_to_delta [⟨1, "A", 12, 200, true⟩]
        (load_data_to_delta [⟨1, "A", 12, 200, true⟩]
          (some ⟨"gmv_date", [⟨1, "A", 10, 100, true⟩]⟩)) ≠
      load_data_to_delta [⟨1, "A", 12, 200, true⟩]
        (some ⟨"gmv_date", [⟨1, "A", 10, 100, true⟩]⟩) ∧
    Option.map (fun t' => (t'.rows.filter (keyIsB 1 "A")).length)
        (load_data_to_delta [⟨1, "A", 12, 200, true⟩]
          (some ⟨"gmv_date", [⟨1, "A", 10, 100, true⟩]⟩)) = some 2 ∧
    Option.map (fun t' => (t'.rows.filter (keyIsB 1 "A")).length)
        (load_data_to_delta [⟨1, "A", 12, 200, true⟩]
          (load_data_to_delta [⟨1, "A", 12, 200, true⟩]
            (some ⟨"gmv_date", [⟨1, "A", 10, 100, true⟩]⟩))) = some 3 := by
  refine ⟨by decide, by decide, by decide⟩

/-- C10: the pipeline output is independent of `product_item`: two runs that
differ only in the product_item table produce the same snapshot and the same
destination state, since `run` discards the extracted product_item records. -/
theorem runJob_ignores_product_item (processing_date ts : Nat)
    (p : List Purchase) (pi1 pi2 : List ProductItem) (e : List PurchaseExtraInfo)
    (dest : Option DeltaTable) :
    runJob processing_date ts ⟨p, pi1, e⟩ dest =
      runJob processing_date ts ⟨p, pi2, e⟩ dest ∧
    transform_gmv_snapshot ts (extract_source_data processing_date ⟨p, pi1, e⟩).1
        (extract_source_data processing_date ⟨p, pi1, e⟩).2.2 =
      transform_gmv_snapshot ts (extract_source_data processing_date ⟨p, pi2, e⟩).1
        (extract_source_data processing_date ⟨p, pi2, e⟩).2.2 :=
  ⟨rfl, rfl⟩

/-- C3: `load_data_to_delta` leaves every destination row whose
(gmv_date, subsidiary) key appears in no snapshot row completely unchanged
(the partition column is also unchanged): the sublist of rows with unmatched
keys is exactly what it was before the load, so an unmatched row's
`is_latest = true` flag persists. -/
theorem load_frame_unmatched_keys (s : List GmvRow) (t t' : DeltaTable)
    (h : load_data_to_delta s (some t) = some t') :
    t'.partitionColumn = t.partitionColumn ∧
    t'.rows.filter (fun r => !(matchedBy s r)) =
      t.rows.filter (fun r => !(matchedBy s r)) := by
  by_cases hs : s.isEmpty
  · simp [load_data_to_delta, hs] at h
    subst h
    exact ⟨rfl, rfl⟩
  · simp only [load_data_to_delta, hs, Bool.false_eq_true, if_false] at h
    cases h
    refine ⟨rfl, ?_⟩
    have hsnil : s.filter (fun r => !(matchedBy s r)) = [] := by
      rw [List.filter_eq_nil_iff]
      intro x hx
      simp [matchedBy_of_mem s x hx]
    simp only [List.filter_append, hsnil, List.append_nil,
      filter_not_matched_map_supersede]

/-- C3 witness: a destination row for key (1, "B") absent from the snapshot
survives the load unchanged. -/
theorem load_frame_unmatched_keys_witness :
    (⟨"gmv_date",
        [⟨1, "A", 10, 100, false⟩, ⟨1, "B", 7, 100, true⟩,
         ⟨1, "A", 12, 200, true⟩]⟩ : DeltaTable).partitionColumn = "gmv_date" ∧
    List.filter (fun r => !(matchedBy [⟨1, "A", 12, 200, true⟩] r))
        [⟨1, "A", 10, 100, false⟩, ⟨1, "B", 7, 100, true⟩, ⟨1, "A", 12, 200, true⟩] =
      List.filter (fun r => !(matchedBy [⟨1, "A", 12, 200, true⟩] r))
        [⟨1, "A", 10, 100, true⟩, ⟨1, "B", 7, 100, true⟩] :=
  load_frame_unmatched_keys [⟨1, "A", 12, 200, true⟩]
    ⟨"gmv_date", [⟨1, "A", 10, 100, true⟩, ⟨1, "B", 7, 100, true⟩]⟩
    ⟨"gmv_date",
      [⟨1, "A", 10, 100, false⟩, ⟨1, "B", 7, 100, true⟩,
       ⟨1, "A", 12, 200, true⟩]⟩ (by decide)

/-- C1: against a destination satisfying the at-most-one-current-row-per-key
invariant, loading a snapshot with pairwise-distinct keys preserves the
invariant; moreover the result is the superseded old rows followed by the
appended snapshot, where every old row with `is_latest = false` is carried
over unchanged (never flipped back to true) and every row still current after
the update is also unchanged. -/
theorem load_preserves_unique_latest (s : List GmvRow) (t t' : DeltaTable)
    (hinv : UniqueLatest t.rows) (hsnap : (s.map rowKey).Nodup)
    (h : load_data_to_delta s (some t) = some t') :
    UniqueLatest t'.rows ∧
    ∃ updated, t'.rows = updated ++ s ∧
      List.Forall₂ (fun old new =>
        (old.is_latest = false → new = old) ∧
        (new.is_latest = true → new = old)) t.rows updated := by
  by_cases hs : s.isEmpty
  · have hse : s = [] := List.isEmpty_iff.1 hs
    subst hse
    simp [load_data_to_delta] at h
    subst h
    refine ⟨hinv, t.rows, (List.append_nil _).symm, ?_⟩
    exact (List.forall₂_same).2 fun a _ => ⟨fun _ => rfl, fun _ => rfl⟩
  · simp only [load_data_to_delta, hs, Bool.false_eq_true, if_false] at h
    cases h
    constructor
    · unfold UniqueLatest
      simp only [List.filter_append, latest_filter_map_supersede, List.map_append,
        List.nodup_append]
      refine ⟨?_, ?_, ?_⟩
      · have hsub : List.Sublist (t.rows.filter (fun r => r.is_latest && !(matchedBy s r)))
            (t.rows.filter (fun r => r.is_latest)) := by
          have : t.rows.filter (fun r => r.is_latest && !(matchedBy s r)) =
              (t.rows.filter (fun r => !(matchedBy s r))).filter
                (fun r => r.is_latest) := by
            rw [List.filter_filter]
          rw [this]
          exact List.Sublist.filter _ (List.filter_sublist _)
        exact ((hsub.map rowKey).nodup) hinv
      · exact (((List.filter_sublist s).map rowKey).nodup) hsnap
      · intro k hk1 hk2
        simp only [List.mem_map] at hk1 hk2
        obtain ⟨r, hr, hrk⟩ := hk1
        obtain ⟨x, hx, hxk⟩ := hk2
        have hrm : matchedBy s r = false := by
          have := List.of_mem_filter hr
          simp only [Bool.and_eq_true, Bool.not_eq_eq_eq_not, Bool.not_true] at this
          exact this.2
        have hxs : x ∈ s := List.mem_of_mem_filter hx
        have : matchedBy s r = true := by
          rw [matchedBy_iff, hrk, ← hxk]
          exact List.mem_map_of_mem rowKey hxs
        simp [hrm] at this
    · refine ⟨t.rows.map (supersedeOne s), rfl, ?_⟩
      refine forall2_map_self _ _ _ fun r _ => ⟨?_, ?_⟩
      · intro hfalse
        exact supersedeOne_not_latest s r hfalse
      · intro hlat
        unfold supersedeOne at hlat ⊢
        split at hlat
        · simp at hlat
        · split
          · simp_all
          · rfl

/-- C1 witness: loading the one-row snapshot for key (1, "A") into a
two-current-row destination keeps the invariant and never revives the
superseded row (2, "C"). -/
theorem load_preserves_unique_latest_witness :
    UniqueLatest [⟨1, "A", 10, 100, false⟩, ⟨2, "C", 3, 50, false⟩,
      ⟨1, "B", 7, 100, true⟩, ⟨1, "A", 12, 200, true⟩] ∧
    ∃ updated,
      ([⟨1, "A", 10, 100, false⟩, ⟨2, "C", 3, 50, false⟩, ⟨1, "B", 7, 100, true⟩,
          ⟨1, "A", 12, 200, true⟩] : List GmvRow) =
        updated ++ [⟨1, "A", 12, 200, true⟩] ∧
      List.Forall₂ (fun old new =>
        (old.is_latest = false → new = old) ∧
        (new.is_latest = true → new = old))
        [⟨1, "A", 10, 100, true⟩, ⟨2, "C", 3, 50, false⟩, ⟨1, "B", 7, 100, true⟩]
        updated :=
  load_preserves_unique_latest [⟨1, "A", 12, 200, true⟩]
    ⟨"gmv_date", [⟨1, "A", 10, 100, true⟩, ⟨2, "C", 3, 50, false⟩,
      ⟨1, "B", 7, 100, true⟩]⟩
    ⟨"gmv_date", [⟨1, "A", 10, 100, false⟩, ⟨2, "C", 3, 50, false⟩,
      ⟨1, "B", 7, 100, true⟩, ⟨1, "A", 12, 200, true⟩]⟩
    (by decide) (by decide) (by decide)

theorem keyIsB_iff (d : Nat) (u : String) (r : GmvRow) :
    keyIsB d u r = true ↔ r.gmv_date = d ∧ r.subsidiary = u := by
  simp [keyIsB]

/-- C2 counterexample: a destination may also hold an older, already
superseded row for the key — here (1, "A") with is_latest = false — and then
the load leaves three rows for that key, not exactly two, even though the
destination did contain a current row for the key and the snapshot a row for
the same key. -/
theorem load_merge_two_rows_cex :
    (List.filter (fun r => keyIsB 1 "A" r && r.is_latest)
        [⟨1, "A", 10, 100, true⟩, ⟨1, "A", 9, 50, false⟩]).length = 1 ∧
    ([⟨1, "A", 12, 200, true⟩] : List GmvRow) ≠ [] ∧
    (List.filter (keyIsB 1 "A") [⟨1, "A", 12, 200, true⟩]).length = 1 ∧
    Option.map (fun t' => (t'.rows.filter (keyIsB 1 "A")).length)
        (load_data_to_delta [⟨1, "A", 12, 200, true⟩]
          (some ⟨"gmv_date", [⟨1, "A", 10, 100, true⟩, ⟨1, "A", 9, 50, false⟩]⟩)) =
      some 3 ∧ (3 : Nat) ≠ 2 := by
  decide

/-- C2 (amended): when the existing destination holds exactly ONE row for the
key (d, u) — a current one — and the snapshot holds exactly one row for that
key, the loaded destination holds exactly two rows for the key: the old row
with its original measure and `is_latest = false`, followed by the snapshot
row. -/
theorem load_merge_supersedes_and_appends (t : DeltaTable) (s : List GmvRow)
    (d : Nat) (u : String) (r0 rn : GmvRow) (t' : DeltaTable)
    (h0 : t.rows.filter (keyIsB d u) = [r0]) (h0lat : r0.is_latest = true)
    (hs : s.filter (keyIsB d u) = [rn])
    (h : load_data_to_delta s (some t) = some t') :
    t'.rows.filter (keyIsB d u) = [{ r0 with is_latest := false }, rn] := by
  have hsne : s.isEmpty = false := by
    cases s with
    | nil => simp at hs
    | cons a l => rfl
  simp only [load_data_to_delta, hsne, Bool.false_eq_true, if_false] at h
  cases h
  have hrn : rn ∈ s ∧ keyIsB d u rn = true := by
    have : rn ∈ s.filter (keyIsB d u) := by
      rw [hs]; exact List.mem_cons_self rn []
    exact ⟨List.mem_of_mem_filter this, List.of_mem_filter this⟩
  have hr0 : keyIsB d u r0 = true := by
    have : r0 ∈ t.rows.filter (keyIsB d u) := by
      rw [h0]; exact List.mem_cons_self r0 []
    exact List.of_mem_filter this
  have hmatch : matchedBy s r0 = true := by
    rw [matchedBy_iff]
    have hk0 : rowKey r0 = (d, u) := by
      obtain ⟨h1, h2⟩ := (keyIsB_iff d u r0).1 hr0
      simp [rowKey, h1, h2]
    have hkn : rowKey rn = (d, u) := by
      obtain ⟨h1, h2⟩ := (keyIsB_iff d u rn).1 hrn.2
      simp [rowKey, h1, h2]
    rw [hk0, ← hkn]
    exact List.mem_map_of_mem rowKey hrn.1
  have hmap : (t.rows.map (supersedeOne s)).filter (keyIsB d u) =
      [{ r0 with is_latest := false }] := by
    rw [List.filter_map]
    have : t.rows.filter (keyIsB d u ∘ supersedeOne s) = t.rows.filter (keyIsB d u) :=
      List.filter_congr fun r _ => by
        simp [Function.comp, keyIsB_supersedeOne]
    rw [this, h0]
    simp [supersedeOne, h0lat, hmatch]
  simp only [List.filter_append, hmap, hs]
  rfl

/-- C2 witness: the spec's own merge example — destination row
(1, "A", 10, current) and snapshot row (1, "A", 12) leave exactly the old row
superseded and the new row current. -/
theorem load_merge_supersedes_and_appends_witness :
    List.filter (keyIsB 1 "A")
        (⟨"gmv_date", [⟨1, "A", 10, 100, false⟩, ⟨1, "B", 7, 100, true⟩,
          ⟨1, "A", 12, 200, true⟩]⟩ : DeltaTable).rows =
      [⟨1, "A", 10, 100, false⟩, ⟨1, "A", 12, 200, true⟩] :=
  load_merge_supersedes_and_appends
    ⟨"gmv_date", [⟨1, "A", 10, 100, true⟩, ⟨1, "B", 7, 100, true⟩]⟩
    [⟨1, "A", 12, 200, true⟩] 1 "A" ⟨1, "A", 10, 100, true⟩ ⟨1, "A", 12, 200, true⟩
    ⟨"gmv_date", [⟨1, "A", 10, 100, false⟩, ⟨1, "B", 7, 100, true⟩,
      ⟨1, "A", 12, 200, true⟩]⟩
    (by decide) (by decide) (by decide) (by decide)

theorem bestOf_mem {α : Type} (ord : α → Nat) (r : α) (xs : List α) :
    bestOf ord r xs ∈ r :: xs := by
  induction xs generalizing r with
  | nil => simp [bestOf]
  | cons x xs ih =>
      unfold bestOf
      split
      · have h := ih x
        simp only [List.mem_cons] at h ⊢
        tauto
      · have h := ih r
        simp only [List.mem_cons] at h ⊢
        tauto

theorem le_ord_bestOf {α : Type} (ord : α → Nat) (r : α) (xs : List α) :
    ∀ z ∈ r :: xs, ord z ≤ ord (bestOf ord r xs) := by
  induction xs generalizing r with
  | nil =>
      intro z hz
      simp only [List.mem_cons, List.not_mem_nil, or_false] at hz
      subst hz
      exact Nat.le_refl _
  | cons x xs ih =>
      intro z hz
      unfold bestOf
      split
      · rename_i hlt
        rcases List.mem_cons.1 hz with rfl | hz'
        · exact Nat.le_trans (Nat.le_of_lt hlt) (ih x x (List.mem_cons_self x xs))
        · exact ih x z hz'
      · rename_i hnlt
        rcases List.mem_cons.1 hz with rfl | hz'
        · exact ih z z (List.mem_cons_self z xs)
        · rcases List.mem_cons.1 hz' with rfl | hz''
          · exact Nat.le_trans (Nat.le_of_not_lt hnlt) (ih r r (List.mem_cons_self r xs))
          · exact ih r z (List.mem_cons.2 (Or.inr hz''))

theorem select_latest_cons {α κ : Type} [DecidableEq κ] (key : α → κ) (ord : α → Nat)
    (r : α) (rest : List α) :
    select_latest key ord (r :: rest) =
      bestOf ord r (rest.filter (fun x => decide (key x = key r))) ::
        select_latest key ord (rest.filter (fun x => decide (key x ≠ key r))) := by
  rw [select_latest]

theorem select_latest_subset {α κ : Type} [DecidableEq κ] (key : α → κ) (ord : α → Nat) :
    ∀ (l : List α), ∀ y ∈ select_latest key ord l, y ∈ l := by
  suffices h : ∀ (n : Nat) (l : List α), l.length = n →
      ∀ y ∈ select_latest key ord l, y ∈ l by
    exact fun l => h l.length l rfl
  intro n
  induction n using Nat.strong_induction_on with
  | _ n ih =>
      intro l hn
      cases l with
      | nil => intro y hy; simp [select_latest] at hy
      | cons r rest =>
          intro y hy
          rw [select_latest_cons] at hy
          rcases List.mem_cons.1 hy with rfl | hy'
          · have h := bestOf_mem ord r (rest.filter (fun x => decide (key x = key r)))
            rcases List.mem_cons.1 h with he | hm
            · rw [he]; exact List.mem_cons_self r rest
            · exact List.mem_cons.2 (Or.inr (List.mem_of_mem_filter hm))
          · have hlen : (rest.filter (fun x => decide (key x ≠ key r))).length < n := by
              subst hn
              exact Nat.lt_succ_of_le (List.length_filter_le _ rest)
            have := ih _ hlen _ rfl y hy'
            exact List.mem_cons.2 (Or.inr (List.mem_of_mem_filter this))

theorem bestOf_key {α κ : Type} [DecidableEq κ] (key : α → κ) (ord : α → Nat)
    (r : α) (rest : List α) :
    key (bestOf ord r (rest.filter (fun x => decide (key x = key r)))) = key r := by
  have h := bestOf_mem ord r (rest.filter (fun x => decide (key x = key r)))
  rcases List.mem_cons.1 h with he | hm
  · rw [he]
  · have := List.of_mem_filter hm
    exact of_decide_eq_true this

theorem select_latest_keys_nodup {α κ : Type} [DecidableEq κ] (key : α → κ) (ord : α → Nat) :
    ∀ (l : List α), ((select_latest key ord l).map key).Nodup := by
  suffices h : ∀ (n : Nat) (l : List α), l.length = n →
      ((select_latest key ord l).map key).Nodup by
    exact fun l => h l.length l rfl
  intro n
  induction n using Nat.strong_induction_on with
  | _ n ih =>
      intro l hn
      cases l with
      | nil => simp [select_latest]
      | cons r rest =>
          rw [select_latest_cons]
          have hlen : (rest.filter (fun x => decide (key x ≠ key r))).length < n := by
            subst hn
            exact Nat.lt_succ_of_le (List.length_filter_le _ rest)
          simp only [List.map_cons, List.nodup_cons]
          refine ⟨?_, ih _ hlen _ rfl⟩
          rw [bestOf_key key ord r rest]
          intro hmem
          obtain ⟨y, hy, hyk⟩ := List.mem_map.1 hmem
          have hyf := select_latest_subset key ord _ y hy
          have : key y ≠ key r := of_decide_eq_true ((List.mem_filter.1 hyf).2)
          exact this hyk

theorem select_latest_keys_mem {α κ : Type} [DecidableEq κ] (key : α → κ) (ord : α → Nat) :
    ∀ (l : List α) (k : κ), k ∈ (select_latest key ord l).map key ↔ k ∈ l.map key := by
  suffices h : ∀ (n : Nat) (l : List α), l.length = n → ∀ (k : κ),
      k ∈ (select_latest key ord l).map key ↔ k ∈ l.map key by
    exact fun l => h l.length l rfl
  intro n
  induction n using Nat.strong_induction_on with
  | _ n ih =>
      intro l hn k
      cases l with
      | nil => simp [select_latest]
      | cons r rest =>
          rw [select_latest_cons]
          have hlen : (rest.filter (fun x => decide (key x ≠ key r))).length < n := by
            subst hn
            exact Nat.lt_succ_of_le (List.length_filter_le _ rest)
          simp only [List.map_cons, List.mem_cons, bestOf_key key ord r rest]
          rw [ih _ hlen _ rfl k]
          constructor
          · rintro (rfl | hk)
            · exact Or.inl rfl
            · obtain ⟨y, hy, hyk⟩ := List.mem_map.1 hk
              exact Or.inr (List.mem_map.2 ⟨y, List.mem_of_mem_filter hy, hyk⟩)
          · rintro (rfl | hk)
            · exact Or.inl rfl
            · by_cases hkr : k = key r
              · exact Or.inl hkr
              · obtain ⟨y, hy, hyk⟩ := List.mem_map.1 hk
                refine Or.inr (List.mem_map.2 ⟨y, List.mem_filter.2 ⟨hy, ?_⟩, hyk⟩)
                exact decide_eq_true (fun he => hkr (hyk ▸ he))

theorem select_latest_length {α κ : Type} [DecidableEq κ] (key : α → κ) (ord : α → Nat) :
    ∀ (l : List α), (select_latest key ord l).length = (l.map key).toFinset.card := by
  suffices h : ∀ (n : Nat) (l : List α), l.length = n →
      (select_latest key ord l).length = (l.map key).toFinset.card by
    exact fun l => h l.length l rfl
  intro n
  induction n using Nat.strong_induction_on with
  | _ n ih =>
      intro l hn
      cases l with
      | nil => simp [select_latest]
      | cons r rest =>
          rw [select_latest_cons]
          have hlen : (rest.filter (fun x => decide (key x ≠ key r))).length < n := by
            subst hn
            exact Nat.lt_succ_of_le (List.length_filter_le _ rest)
          have hfin : ((rest.filter (fun x => decide (key x ≠ key r))).map key).toFinset =
              ((rest.map key).toFinset).erase (key r) := by
            ext k
            simp only [List.mem_toFinset, List.mem_map, List.mem_filter,
              Finset.mem_erase, decide_eq_true_eq]
            constructor
            · rintro ⟨y, ⟨hy, hne⟩, rfl⟩
              exact ⟨hne, y, hy, rfl⟩
            · rintro ⟨hne, y, hy, rfl⟩
              exact ⟨y, ⟨hy, hne⟩, rfl⟩
          have hins : ((r :: rest).map key).toFinset =
              insert (key r) (((rest.map key).toFinset).erase (key r)) := by
            ext k
            simp only [List.map_cons, List.mem_toFinset, List.mem_cons,
              Finset.mem_insert, Finset.mem_erase]
            constructor
            · rintro (rfl | hk)
              · exact Or.inl rfl
              · by_cases hkr : k = key r
                · exact Or.inl hkr
                · exact Or.inr ⟨hkr, hk⟩
            · rintro (rfl | ⟨_, hk⟩)
              · exact Or.inl rfl
              · exact Or.inr hk
          rw [List.length_cons, ih _ hlen _ rfl, hfin, hins,
            Finset.card_insert_of_not_mem (Finset.not_mem_erase _ _)]

theorem select_latest_max {α κ : Type} [DecidableEq κ] (key : α → κ) (ord : α → Nat) :
    ∀ (l : List α), ∀ y ∈ select_latest key ord l, ∀ x ∈ l, key x = key y → ord x ≤ ord y := by
  suffices h : ∀ (n : Nat) (l : List α), l.length = n →
      ∀ y ∈ select_latest key ord l, ∀ x ∈ l, key x = key y → ord x ≤ ord y by
    exact fun l => h l.length l rfl
  intro n
  induction n using Nat.strong_induction_on with
  | _ n ih =>
      intro l hn
      cases l with
      | nil => intro y hy; simp [select_latest] at hy
      | cons r rest =>
          intro y hy x hx hkxy
          rw [select_latest_cons] at hy
          have hlen : (rest.filter (fun x => decide (key x ≠ key r))).length < n := by
            subst hn
            exact Nat.lt_succ_of_le (List.length_filter_le _ rest)
          rcases List.mem_cons.1 hy with rfl | hy'
          · have hky : key x = key r := by
              rw [hkxy, bestOf_key key ord r rest]
            rcases List.mem_cons.1 hx with rfl | hx'
            · exact le_ord_bestOf ord x _ x (List.mem_cons_self x _)
            · exact le_ord_bestOf ord r _ x
                (List.mem_cons.2 (Or.inr (List.mem_filter.2 ⟨hx', decide_eq_true hky⟩)))
          · have hyr : key y ≠ key r :=
              of_decide_eq_true
                ((List.mem_filter.1 (select_latest_subset key ord _ y hy')).2)
            rcases List.mem_cons.1 hx with rfl | hx'
            · exact absurd hkxy.symm hyr
            · refine ih _ hlen _ rfl y hy' x (List.mem_filter.2 ⟨hx', ?_⟩) hkxy
              exact decide_eq_true (fun he => hyr (hkxy ▸ he))

/-- C4: `_get_latest_records` (select_latest) keeps exactly one record per
distinct partition-key value of the input: the output keys are pairwise
distinct, a key occurs in the output iff it occurs in the input, the output
length equals the number of distinct input keys, the output is empty iff the
input is, and each retained record is an input record of its partition whose
order field is maximal there (rank 1 under descending order). -/
theorem select_latest_spec {α κ : Type} [DecidableEq κ] (key : α → κ) (ord : α → Nat)
    (l : List α) :
    ((select_latest key ord l).map key).Nodup ∧
    (∀ k, k ∈ (select_latest key ord l).map key ↔ k ∈ l.map key) ∧
    (select_latest key ord l).length = (l.map key).toFinset.card ∧
    (select_latest key ord l = [] ↔ l = []) ∧
    (∀ y ∈ select_latest key ord l, y ∈ l ∧
      ∀ x ∈ l, key x = key y → ord x ≤ ord y) :=
  ⟨select_latest_keys_nodup key ord l,
   select_latest_keys_mem key ord l,
   select_latest_length key ord l,
   by
     cases l with
     | nil => simp [select_latest]
     | cons r rest =>
         rw [select_latest_cons]
         simp,
   fun y hy => ⟨select_latest_subset key ord l y hy,
     select_latest_max key ord l y hy⟩⟩

/-- C4 witness: the selector applied to a concrete three-record input with
two distinct keys has pairwise-distinct output keys and one output record per
distinct input key. -/
theorem select_latest_spec_witness :
    ((select_latest joinKeyP (fun p => p.transaction_datetime)
        [⟨1, 0, 5, 10, "APROVADA", 10, "A"⟩, ⟨1, 0, 5, 20, "APROVADA", 11, "A"⟩,
         ⟨2, 0, 5, 10, "PENDENTE", 5, "A"⟩]).map joinKeyP).Nodup ∧
    (select_latest joinKeyP (fun p => p.transaction_datetime)
        [⟨1, 0, 5, 10, "APROVADA", 10, "A"⟩, ⟨1, 0, 5, 20, "APROVADA", 11, "A"⟩,
         ⟨2, 0, 5, 10, "PENDENTE", 5, "A"⟩]).length =
      (([⟨1, 0, 5, 10, "APROVADA", 10, "A"⟩, ⟨1, 0, 5, 20, "APROVADA", 11, "A"⟩,
         ⟨2, 0, 5, 10, "PENDENTE", 5, "A"⟩] : List Purchase).map joinKeyP).toFinset.card :=
  ⟨(select_latest_spec joinKeyP (fun p => p.transaction_datetime) _).1,
   (select_latest_spec joinKeyP (fun p => p.transaction_datetime) _).2.2.1⟩

theorem flatMap_congr {α β : Type} (l : List α) (f g : α → List β)
    (h : ∀ a ∈ l, f a = g a) : l.flatMap f = l.flatMap g := by
  induction l with
  | nil => rfl
  | cons a l ih =>
      rw [List.flatMap_cons, List.flatMap_cons, h a (List.mem_cons_self a l),
        ih fun a ha => h a (List.mem_cons.2 (Or.inr ha))]

/-- C6: in the left join, every output row carries a purchase from the
primary input; filtering the enrichment input down to the rows matched by
some primary key does not change the join at all (unmatched enrichment rows
contribute nothing); and a primary row matched by no enrichment row is
retained with a null `release_date`. -/
theorem leftJoin_spec (ps : List Purchase) (es : List PurchaseExtraInfo) :
    (∀ j ∈ leftJoin ps es, j.purchase ∈ ps) ∧
    leftJoin ps (es.filter (fun e => ps.any (fun p => decide (joinKeyE e = joinKeyP p)))) =
      leftJoin ps es ∧
    (∀ p ∈ ps, (∀ e ∈ es, joinKeyE e ≠ joinKeyP p) →
      (⟨p, none⟩ : JoinedRow) ∈ leftJoin ps es) := by
  refine ⟨?_, ?_, ?_⟩
  · intro j hj
    obtain ⟨p, hp, hjp⟩ := List.mem_flatMap.1 hj
    by_cases hms : (es.filter (fun e => decide (joinKeyE e = joinKeyP p))).isEmpty
    · simp only [leftJoin, hms, if_true] at hjp
      simp only [List.mem_singleton] at hjp
      subst hjp
      exact hp
    · simp only [leftJoin, hms, Bool.false_eq_true, if_false] at hjp
      obtain ⟨e, _, hje⟩ := List.mem_map.1 hjp
      subst hje
      exact hp
  · unfold leftJoin
    refine flatMap_congr ps _ _ fun p hp => ?_
    have hf : (es.filter (fun e =>
          ps.any (fun q => decide (joinKeyE e = joinKeyP q)))).filter
            (fun e => decide (joinKeyE e = joinKeyP p)) =
        es.filter (fun e => decide (joinKeyE e = joinKeyP p)) := by
      rw [List.filter_filter]
      refine List.filter_congr fun e _ => ?_
      by_cases hk : joinKeyE e = joinKeyP p
      · simp only [hk, decide_True, Bool.true_and]
        exact List.any_eq_true.2 ⟨p, hp, decide_eq_true rfl⟩
      · simp [hk]
    rw [hf]
  · intro p hp hnone
    refine List.mem_flatMap.2 ⟨p, hp, ?_⟩
    have hms : es.filter (fun e => decide (joinKeyE e = joinKeyP p)) = [] := by
      rw [List.filter_eq_nil_iff]
      intro e he
      simp only [decide_eq_true_eq]
      exact hnone e he
    simp [hms]

/-- C6 witness: the enrichment row with key (3, 0) matches no primary row and
a primary row with key (1, 0) is retained with null release_date when no
enrichment row matches it. -/
theorem leftJoin_spec_witness :
    (⟨⟨1, 0, 5, 10, "APROVADA", 10, "A"⟩, none⟩ : JoinedRow) ∈
      leftJoin [⟨1, 0, 5, 10, "APROVADA", 10, "A"⟩] [⟨3, 0, 5, 10, some 9⟩] :=
  (leftJoin_spec [⟨1, 0, 5, 10, "APROVADA", 10, "A"⟩] [⟨3, 0, 5, 10, some 9⟩]).2.2
    ⟨1, 0, 5, 10, "APROVADA", 10, "A"⟩ (by decide) (by decide)

/-- C5: the snapshot has pairwise-distinct (gmv_date, subsidiary) keys, one
row per distinct key of the eligible joined rows (a key appears iff some
eligible row has it, so groups made only of filtered-out rows do not appear,
not even as zero), each row's total is the sum of `purchase_total_value` over
exactly the eligible joined rows of its key, and each row carries
`is_latest = true` and the calculation timestamp. -/
theorem transform_gmv_spec (ts : Nat) (purchase_df : List Purchase)
    (purchase_extra_info_df : List PurchaseExtraInfo) :
    ((transform_gmv_snapshot ts purchase_df purchase_extra_info_df).map rowKey).Nodup ∧
    (∀ k, k ∈ (transform_gmv_snapshot ts purchase_df purchase_extra_info_df).map rowKey ↔
      ∃ j ∈ eligibleRows purchase_df purchase_extra_info_df, gmvKey j = k) ∧
    (∀ row ∈ transform_gmv_snapshot ts purchase_df purchase_extra_info_df,
      row.is_latest = true ∧ row.calculation_timestamp = ts ∧
      row.gmv_total_day =
        (((eligibleRows purchase_df purchase_extra_info_df).filter
            (fun j => decide (gmvKey j = rowKey row))).map
          (fun j => j.purchase.purchase_total_value)).sum) := by
  have hmap : (transform_gmv_snapshot ts purchase_df purchase_extra_info_df).map rowKey =
      ((eligibleRows purchase_df purchase_extra_info_df).map gmvKey).dedup := by
    unfold transform_gmv_snapshot
    rw [List.map_map]
    have : ∀ k ∈ ((eligibleRows purchase_df purchase_extra_info_df).map gmvKey).dedup,
        (rowKey ∘ fun k : Nat × String =>
          ({ gmv_date := k.1, subsidiary := k.2,
             gmv_total_day :=
               (((eligibleRows purchase_df purchase_extra_info_df).filter
                   (fun r => decide (gmvKey r = k))).map
                 (fun r => r.purchase.purchase_total_value)).sum,
             calculation_timestamp := ts, is_latest := true } : GmvRow)) k = k := by
      intro k _
      simp [rowKey, Function.comp]
    rw [List.map_congr_left this]
    simp
  refine ⟨?_, ?_, ?_⟩
  · rw [hmap]
    exact List.nodup_dedup _
  · intro k
    rw [hmap, List.mem_dedup, List.mem_map]
  · intro row hrow
    unfold transform_gmv_snapshot at hrow
    obtain ⟨k, hk, hkr⟩ := List.mem_map.1 hrow
    have hkey : rowKey row = k := by
      subst hkr
      simp [rowKey]
    subst hkr
    refine ⟨rfl, rfl, ?_⟩
    rw [hkey]

/-- C5 witness: the snapshot computed from a concrete input has
pairwise-distinct keys. -/
theorem transform_gmv_spec_witness :
    ((transform_gmv_snapshot 99
        [⟨1, 0, 5, 10, "APROVADA", 10, "A"⟩, ⟨1, 0, 5, 20, "APROVADA", 11, "A"⟩,
         ⟨2, 0, 5, 10, "PENDENTE", 5, "A"⟩]
        [⟨1, 0, 5, 10, some 7⟩, ⟨2, 0, 5, 10, some 7⟩, ⟨3, 0, 5, 10, some 9⟩]).map
      rowKey).Nodup :=
  (transform_gmv_spec 99
    [⟨1, 0, 5, 10, "APROVADA", 10, "A"⟩, ⟨1, 0, 5, 20, "APROVADA", 11, "A"⟩,
     ⟨2, 0, 5, 10, "PENDENTE", 5, "A"⟩]
    [⟨1, 0, 5, 10, some 7⟩, ⟨2, 0, 5, 10, some 7⟩, ⟨3, 0, 5, 10, some 9⟩]).1

end GmvEtl
